import Mathlib

/-!
Verification of the braindump bulleted-outline editor (`src/braindump/cli.py`).

The editor works on one mutable text buffer (a sequence of characters with a
cursor). We embed it as a `List Char` together with a `Nat` cursor; Python
indexes strings by code point, so `List Char` positions coincide with Python
string indices. Each key handler of `edit_in_terminal` becomes a pure function
on an explicit editor state, and the save/cancel epilogue becomes a pure
function from the final state to a save outcome.
-/

namespace Braindump

/-! ### Python string primitives -/

/-- Characters that Python's `str.strip` / `str.rstrip` remove (the ASCII
whitespace actually reachable in this code base). -/
def pyIsSpace (c : Char) : Bool :=
  c = ' ' || c = '\t' || c = '\n' || c = '\r' || c = '\x0b' || c = '\x0c'

/-- Python `s.rstrip()`. -/
def pyRstrip (l : List Char) : List Char :=
  (l.reverse.dropWhile pyIsSpace).reverse

/-- Python `s.strip()`. -/
def pyStrip (l : List Char) : List Char :=
  pyRstrip (l.dropWhile pyIsSpace)

/-- Index of the first occurrence of a character, Python `s.find(ch)`. -/
def findChar (ch : Char) : List Char → Option Nat
  | [] => none
  | c :: rest => if c = ch then some 0 else (findChar ch rest).map (· + 1)

/-- Index of the last occurrence of a character, Python `s.rfind(ch)`. -/
def rfindChar (ch : Char) : List Char → Option Nat
  | [] => none
  | c :: rest =>
    match rfindChar ch rest with
    | some i => some (i + 1)
    | none => if c = ch then some 0 else none

/-- Index of the first occurrence of a substring, Python `s.find(sub)`. -/
def findSub (pat : List Char) : List Char → Option Nat
  | [] => if pat.isPrefixOf ([] : List Char) then some 0 else none
  | c :: rest =>
    if pat.isPrefixOf (c :: rest) then some 0
    else (findSub pat rest).map (· + 1)

/-- Python `s.split("\n")`: always at least one piece, empty pieces kept. -/
def splitNL : List Char → List (List Char)
  | [] => [[]]
  | c :: rest =>
    if c = '\n' then [] :: splitNL rest
    else
      match splitNL rest with
      | [] => [[c]]
      | l :: ls => (c :: l) :: ls

/-- Python `"\n".join(lines)`. -/
def joinNL : List (List Char) → List Char
  | [] => []
  | [l] => l
  | l :: l' :: ls => l ++ '\n' :: joinNL (l' :: ls)

/-! ### Bullet constants and helpers (cli.py lines 144-157) -/

/-- The five stylized bullet characters, one per indentation level. -/
def BULLET_CHARS : List Char := ['•', '◦', '‣', '⁃', '▪']

/-- Maximum indentation level. -/
def MAX_LEVEL : Nat := 5

/-- `get_bullet_for_level`: bullet character for a level, plus a trailing
space; the index is clamped to the last bullet character. -/
def get_bullet_for_level (level : Nat) : List Char :=
  [BULLET_CHARS.getD (min (level - 1) (BULLET_CHARS.length - 1)) '•', ' ']

/-- `get_line_bullet_info`: `(indent_spaces, bullet_char, content)` of a line.
The line is stripped of leading spaces; a recognized bullet is one of the five
stylized characters followed by a space, or the markdown fallback `"- "`. -/
def get_line_bullet_info (line : List Char) : Nat × Option Char × List Char :=
  let stripped := line.dropWhile (· = ' ')
  let spaces := line.length - stripped.length
  match stripped with
  | c :: d :: rest =>
    if d = ' ' ∧ (c ∈ BULLET_CHARS ∨ c = '-') then (spaces, some c, rest)
    else (spaces, none, stripped)
  | _ => (spaces, none, stripped)

/-- Indentation level derived from leading spaces (2 spaces per level). -/
def lineLevel (line : List Char) : Nat :=
  (line.length - (line.dropWhile (· = ' ')).length) / 2 + 1

/-! ### The document position model (prompt_toolkit `Document`)

`lineStartIdx` is the index right after the last newline before the cursor,
`lineEndIdx` the index of the next newline at or after the cursor (or the text
length), and `currentLineOf` the text between them — exactly the values
`doc.cursor_position - doc.cursor_position_col`, the end of `doc.current_line`,
and `doc.current_line` used by the handlers. -/

def lineStartIdx (text : List Char) (cursor : Nat) : Nat :=
  match rfindChar '\n' (text.take cursor) with
  | none => 0
  | some i => i + 1

def lineEndIdx (text : List Char) (cursor : Nat) : Nat :=
  match findChar '\n' (text.drop cursor) with
  | none => text.length
  | some i => cursor + i

def currentLineOf (text : List Char) (cursor : Nat) : List Char :=
  (text.take (lineEndIdx text cursor)).drop (lineStartIdx text cursor)

/-! ### The editor state

`edit_in_terminal` keeps the buffer plus three mutable flags:
`save_on_exit`, `last_enter_was_empty` (the pending-exit / double-enter
tracker) and whether the application has exited. -/

structure EState where
  text : List Char
  cursor : Nat
  lastEnterWasEmpty : Bool
  saveOnExit : Bool
  exited : Bool
deriving DecidableEq, Repr

/-- `buffer.insert_text`: insert at the cursor, cursor moves past the insertion. -/
def insert_text (s : EState) (ins : List Char) : EState :=
  { s with text := s.text.take s.cursor ++ ins ++ s.text.drop s.cursor,
           cursor := s.cursor + ins.length }

/-- `set_line_indent` (cli.py lines 240-279): rebuild the current line with the
indentation and bullet of `newLevel`, repositioning the cursor. `line_start` in
the source is `cursor - cursor_position_col`, which equals `lineStartIdx`. -/
def set_line_indent (s : EState) (newLevel : Nat) : EState :=
  let line := currentLineOf s.text s.cursor
  let info := get_line_bullet_info line
  let spaces := info.1
  let oldBullet := info.2.1
  let content := info.2.2
  -- INDENT * (newLevel - 1) with INDENT = "  "
  let newIndent := List.replicate (2 * (newLevel - 1)) ' '
  let newBullet := get_bullet_for_level newLevel
  let newLine :=
    match oldBullet with
    | some _ => newIndent ++ newBullet ++ content
    | none => newIndent ++ line.dropWhile (· = ' ')
  let lineStart := lineStartIdx s.text s.cursor
  let lineEnd := lineStart + line.length
  let oldCol := s.cursor - lineStart
  let oldPrefixLen := spaces + (match oldBullet with | some _ => 2 | none => 0)
  let newPrefixLen := newIndent.length + newBullet.length
  let newCol := if oldCol ≤ oldPrefixLen then newPrefixLen
                else oldCol + newPrefixLen - oldPrefixLen
  { s with text := s.text.take lineStart ++ newLine ++ s.text.drop lineEnd,
           cursor := lineStart + min newCol newLine.length }

/-- `get_current_line_indent_level` of the state's current line. -/
def get_current_line_indent_level (s : EState) : Nat :=
  lineLevel (currentLineOf s.text s.cursor)

/-- `handle_tab`: increase indentation, no-op at `MAX_LEVEL`. -/
def handle_tab (s : EState) : EState :=
  let currentLevel := get_current_line_indent_level s
  if currentLevel < MAX_LEVEL then set_line_indent s (currentLevel + 1) else s

/-- `handle_shift_tab`: decrease indentation, no-op at level 1. -/
def handle_shift_tab (s : EState) : EState :=
  let currentLevel := get_current_line_indent_level s
  if currentLevel > 1 then set_line_indent s (currentLevel - 1) else s

/-- `handle_enter` (cli.py lines 295-340). -/
def handle_enter (s : EState) : EState :=
  let line := currentLineOf s.text s.cursor
  let info := get_line_bullet_info line
  let spaces := info.1
  let content := info.2.2
  let currentLevel := spaces / 2 + 1
  let indent := List.replicate spaces ' '
  let isEmptyBullet := info.2.1.isSome && content.all pyIsSpace
  if isEmptyBullet then
    if currentLevel > 1 then
      { set_line_indent s (currentLevel - 1) with lastEnterWasEmpty := false }
    else if s.lastEnterWasEmpty then
      { s with saveOnExit := true, exited := true }
    else
      { s with lastEnterWasEmpty := true }
  else
    insert_text { s with lastEnterWasEmpty := false }
      ('\n' :: (indent ++ get_bullet_for_level currentLevel))

/-- Buffer/cursor part of `handle_backspace` (cli.py lines 342-404); the flag
reset that the source performs first is applied by `handle_backspace` below. -/
def backspace_text_cursor (text : List Char) (cursor : Nat) : List Char × Nat :=
  if cursor = 0 then (text, cursor)
  else
    let line := currentLineOf text cursor
    let col := cursor - lineStartIdx text cursor
    let info := get_line_bullet_info line
    let spaces := info.1
    let content := info.2.2
    match info.2.1 with
    | some _ =>
      let bulletEnd := spaces + 2  -- len(bullet_char) + 1, bullets are single chars
      if col = bulletEnd then
        let lineStart := cursor - col
        let lineEnd := lineEndIdx text cursor
        if 0 < lineStart then
          let prevNewline := lineStart - 1
          (text.take prevNewline ++ content ++ text.drop lineEnd, prevNewline)
        else
          if content = [] then (text, cursor)
          else (content ++ text.drop lineEnd, 0)
      else (text.take (cursor - 1) ++ text.drop cursor, cursor - 1)
    | none => (text.take (cursor - 1) ++ text.drop cursor, cursor - 1)

/-- `handle_backspace`: resets the double-enter tracker, then deletes a
character or merges the line into the previous one. -/
def handle_backspace (s : EState) : EState :=
  let tc := backspace_text_cursor s.text s.cursor
  { s with text := tc.1, cursor := tc.2, lastEnterWasEmpty := false }

/-- Models prompt_toolkit `Buffer.cursor_down` (not repository code): move to
the next logical line, keeping the column clamped to that line's length. -/
def cursor_down_pos (text : List Char) (cursor : Nat) : Nat :=
  let col := cursor - lineStartIdx text cursor
  let e := lineEndIdx text cursor
  if e < text.length then (e + 1) + min col (currentLineOf text (e + 1)).length
  else cursor

/-- Buffer/cursor part of `handle_down_arrow` (cli.py lines 458-485): on the
last line append a fresh same-level bullet and move into it, otherwise move the
cursor down. -/
def down_arrow_text_cursor (text : List Char) (cursor : Nat) : List Char × Nat :=
  let lines := splitNL text
  let currentLineNum := (text.take cursor).count '\n'
  if lines.length - 1 ≤ currentLineNum then
    let line := currentLineOf text cursor
    let info := get_line_bullet_info line
    let spaces := info.1
    let currentLevel := spaces / 2 + 1
    let newBullet := '\n' :: (List.replicate spaces ' ' ++ get_bullet_for_level currentLevel)
    (text ++ newBullet, text.length + newBullet.length)
  else (text, cursor_down_pos text cursor)

/-- `handle_down_arrow` on the editor state. -/
def handle_down_arrow (s : EState) : EState :=
  let tc := down_arrow_text_cursor s.text s.cursor
  { s with text := tc.1, cursor := tc.2 }

/-- `handle_save` / `handle_save_mac`: save and exit. -/
def handle_save (s : EState) : EState :=
  { s with saveOnExit := true, exited := true }

/-- `handle_cancel` / `handle_escape`: cancel and exit. -/
def handle_cancel (s : EState) : EState :=
  { s with saveOnExit := false, exited := true }

/-- An external interrupt or EOF while the application runs: the
`except (KeyboardInterrupt, EOFError)` handler forces `save_on_exit = False`. -/
def interrupt_session (s : EState) : EState :=
  { s with saveOnExit := false, exited := true }

/-! ### Seeding the editor (cli.py lines 178-202)

The loop that converts the decoded body into the initial buffer text. It
rewrites a leading `"- "` or `"• "` into the stylized bullet for the line's
indentation level and passes every other line through unchanged. -/

/-- One iteration of the seeding loop of `edit_in_terminal`. -/
def seedLine (line : List Char) : List Char :=
  let stripped := line.dropWhile (· = ' ')
  let spaces := line.length - stripped.length
  let level := spaces / 2 + 1
  match stripped with
  | c :: d :: rest =>
    if d = ' ' ∧ (c = '-' ∨ c = '•') then
      List.replicate spaces ' ' ++ get_bullet_for_level level ++ rest
    else line
  | _ => line

/-- The initial buffer text built from the decoded body: the seeded lines, or
a single empty level-1 bullet when the result is empty or blank. -/
def initial_text_of (body : List Char) : List Char :=
  let t := if body = [] then [] else joinNL ((splitNL body).map seedLine)
  if pyStrip t = [] then get_bullet_for_level 1 else t

/-- `normalize_bullets` (cli.py lines 159-176): converts any recognized bullet
marker — the five stylized characters or `"-"` — to the stylized bullet of the
line's indentation level. Defined in the source but never called by it. -/
def normalize_bullets_line (line : List Char) : List Char :=
  let stripped := line.dropWhile (· = ' ')
  let spaces := line.length - stripped.length
  let level := spaces / 2 + 1
  match stripped with
  | c :: d :: rest =>
    if d = ' ' ∧ (c ∈ BULLET_CHARS ∨ c = '-') then
      List.replicate spaces ' ' ++ get_bullet_for_level level ++ rest
    else line
  | _ => line

/-- `normalize_bullets` applied to a whole text. -/
def normalize_bullets (text : List Char) : List Char :=
  joinNL ((splitNL text).map normalize_bullets_line)

/-! ### The save epilogue (cli.py lines 585-654) -/

/-- One line of the cleanup pass: `None` when the line is dropped (blank after
rstrip, or exactly a bullet marker with no content). -/
def cleanupLine (line : List Char) : Option (List Char) :=
  let stripped := pyRstrip line
  if stripped = [] then none
  else
    let lineContent := stripped.dropWhile (· = ' ')
    if BULLET_CHARS.any (fun bc => lineContent = [bc] ∨ lineContent = [bc, ' '])
    then none
    else some stripped

/-- The `edited_lines` list built from the final buffer text. -/
def edited_lines_of (finalText : List Char) : List (List Char) :=
  (splitNL finalText).filterMap cleanupLine

/-- `normalize_line` (cli.py lines 608-617): rstrip, then rewrite any
recognized bullet marker to `"• "`, keeping the indentation. -/
def normalize_line (ln : List Char) : List Char :=
  let s := pyRstrip ln
  let content := s.dropWhile (· = ' ')
  let spaces := s.length - content.length
  match content with
  | c :: d :: rest =>
    if d = ' ' ∧ (c ∈ BULLET_CHARS ∨ c = '-') then
      List.replicate spaces ' ' ++ '•' :: ' ' :: rest
    else s
  | _ => s

/-- The `original_lines` list built from the loaded body: empty body gives no
lines; otherwise blank lines are dropped and the rest normalized. -/
def original_lines_of (body : List Char) : List (List Char) :=
  if body = [] then []
  else (splitNL body).filterMap (fun line =>
    let stripped := pyRstrip line
    if stripped = [] then none else some (normalize_line stripped))

/-- What happens to the file when the session ends. -/
inductive SaveOutcome where
  | deleted
  | skipped
  | written (content : List Char)
  | cancelled
deriving DecidableEq, Repr

/-- `encode`: the file content written on save (cli.py lines 638-644). -/
def encode (frontmatterRaw : List Char) (editedLines : List (List Char)) : List Char :=
  let newBody := joinNL editedLines
  if frontmatterRaw ≠ [] then frontmatterRaw ++ '\n' :: '\n' :: (newBody ++ ['\n'])
  else newBody ++ ['\n']

/-- The save epilogue of `edit_in_terminal`: cancelled sessions discard the
buffer; otherwise the cleaned-up lines are compared (bullet-normalized)
against the original body to decide delete / skip / write. -/
def save_outcome (saveOnExit : Bool) (finalText body frontmatterRaw : List Char) :
    SaveOutcome :=
  if saveOnExit then
    let editedLines := edited_lines_of finalText
    let originalLines := original_lines_of body
    if editedLines.map normalize_line = originalLines then
      if originalLines.length = 0 then .deleted else .skipped
    else .written (encode frontmatterRaw editedLines)
  else .cancelled

/-- Outcome of a finished session against the loaded document. -/
def session_result (s : EState) (body frontmatterRaw : List Char) : SaveOutcome :=
  save_outcome s.saveOnExit s.text body frontmatterRaw

/-! ### Frontmatter parsing (cli.py lines 125-141) -/

/-- `decode`: split raw file content into `(frontmatter_raw, body)`. The body
is stripped only when a frontmatter block is found; malformed or absent
delimiters leave the whole content as the body. -/
def decode (content : List Char) : List Char × List Char :=
  if ['-', '-', '-'].isPrefixOf content then
    match (findSub ['-', '-', '-'] (content.drop 3)).map (· + 3) with
    | some e => (content.take (e + 3), pyStrip (content.drop (e + 3)))
    | none => ([], content)
  else ([], content)

/-! ### Helper lemmas about `findChar` and `rfindChar` -/

theorem rfindChar_eq_none {ch : Char} : ∀ {l : List Char}, ch ∉ l → rfindChar ch l = none
  | [], _ => rfl
  | c :: rest, h => by
    have h1 : ch ∉ rest := fun hm => h (List.mem_cons_of_mem _ hm)
    have h2 : ¬(c = ch) := fun he => h (he ▸ List.mem_cons_self _ _)
    simp [rfindChar, rfindChar_eq_none h1, h2]

theorem not_mem_of_rfindChar_eq_none {ch : Char} :
    ∀ {l : List Char}, rfindChar ch l = none → ch ∉ l
  | [], _ => by simp
  | c :: rest, h => by
    rw [rfindChar] at h
    rcases hr : rfindChar ch rest with _ | i
    · rw [hr] at h
      have hc : ¬(c = ch) := by by_contra hc; simp [hc] at h
      have := not_mem_of_rfindChar_eq_none hr
      simp [this]
      exact fun he => hc he.symm
    · rw [hr] at h; exact absurd h (by simp)

theorem rfindChar_lt {ch : Char} :
    ∀ {l : List Char} {i : Nat}, rfindChar ch l = some i → i < l.length
  | [], i, h => by simp [rfindChar] at h
  | c :: rest, i, h => by
    rw [rfindChar] at h
    rcases hr : rfindChar ch rest with _ | j
    · rw [hr] at h
      by_cases hc : c = ch
      · simp [hc] at h; simp only [List.length_cons]; omega
      · simp [hc] at h
    · rw [hr] at h
      have hj := rfindChar_lt hr
      simp only [Option.some.injEq] at h
      simp only [List.length_cons]
      omega

theorem rfindChar_drop_of_eq_some {ch : Char} :
    ∀ {l : List Char} {i : Nat}, rfindChar ch l = some i → ch ∉ l.drop (i + 1)
  | [], i, h => by simp [rfindChar] at h
  | c :: rest, i, h => by
    rw [rfindChar] at h
    rcases hr : rfindChar ch rest with _ | j
    · rw [hr] at h
      by_cases hc : c = ch
      · simp [hc] at h
        subst h
        simpa using not_mem_of_rfindChar_eq_none hr
      · simp [hc] at h
    · rw [hr] at h
      simp at h
      subst h
      simpa using rfindChar_drop_of_eq_some hr

theorem rfindChar_get {ch : Char} :
    ∀ {l : List Char} {i : Nat}, rfindChar ch l = some i → l[i]? = some ch
  | [], i, h => by simp [rfindChar] at h
  | c :: rest, i, h => by
    rw [rfindChar] at h
    rcases hr : rfindChar ch rest with _ | j
    · rw [hr] at h
      by_cases hc : c = ch
      · simp [hc] at h; subst h; simp [hc]
      · simp [hc] at h
    · rw [hr] at h
      simp at h
      subst h
      simpa using rfindChar_get hr

theorem rfindChar_append {ch : Char} (l₁ l₂ : List Char) :
    rfindChar ch (l₁ ++ l₂) =
      match rfindChar ch l₂ with
      | some i => some (l₁.length + i)
      | none => rfindChar ch l₁ := by
  induction l₁ with
  | nil => rcases h : rfindChar ch l₂ with _ | i <;> simp [h, rfindChar]
  | cons c rest ih =>
    rw [List.cons_append, rfindChar, ih, rfindChar]
    rcases h2 : rfindChar ch l₂ with _ | i
    · rcases h1 : rfindChar ch rest with _ | j <;> simp
    · simp [List.length_cons]; omega

theorem findChar_eq_none {ch : Char} : ∀ {l : List Char}, ch ∉ l → findChar ch l = none
  | [], _ => rfl
  | c :: rest, h => by
    have h1 : ch ∉ rest := fun hm => h (List.mem_cons_of_mem _ hm)
    have h2 : ¬(c = ch) := fun he => h (he ▸ List.mem_cons_self _ _)
    simp [findChar, findChar_eq_none h1, h2]

theorem not_mem_of_findChar_eq_none {ch : Char} :
    ∀ {l : List Char}, findChar ch l = none → ch ∉ l
  | [], _ => by simp
  | c :: rest, h => by
    rw [findChar] at h
    by_cases hc : c = ch
    · simp [hc] at h
    · simp [hc] at h
      rcases hr : findChar ch rest with _ | i
      · have := not_mem_of_findChar_eq_none hr
        simp [this]
        exact fun he => hc he.symm
      · rw [hr] at h; simp at h

theorem findChar_lt {ch : Char} :
    ∀ {l : List Char} {i : Nat}, findChar ch l = some i → i < l.length
  | [], i, h => by simp [findChar] at h
  | c :: rest, i, h => by
    rw [findChar] at h
    by_cases hc : c = ch
    · simp [hc] at h; simp only [List.length_cons]; omega
    · simp [hc] at h
      rcases hr : findChar ch rest with _ | j
      · rw [hr] at h; simp at h
      · rw [hr] at h
        have hj := findChar_lt hr
        simp at h
        simp only [List.length_cons]
        omega

theorem findChar_get {ch : Char} :
    ∀ {l : List Char} {i : Nat}, findChar ch l = some i → l[i]? = some ch
  | [], i, h => by simp [findChar] at h
  | c :: rest, i, h => by
    rw [findChar] at h
    by_cases hc : c = ch
    · simp [hc] at h; subst h; simp [hc]
    · simp [hc] at h
      rcases hr : findChar ch rest with _ | j
      · rw [hr] at h; simp at h
      · rw [hr] at h
        simp at h
        subst h
        simpa using findChar_get hr

theorem findChar_take_of_eq_some {ch : Char} :
    ∀ {l : List Char} {i : Nat}, findChar ch l = some i → ch ∉ l.take i
  | [], i, h => by simp [findChar] at h
  | c :: rest, i, h => by
    rw [findChar] at h
    by_cases hc : c = ch
    · simp [hc] at h; subst h; simp
    · simp [hc] at h
      rcases hr : findChar ch rest with _ | j
      · rw [hr] at h; simp at h
      · rw [hr] at h
        simp at h
        subst h
        have := findChar_take_of_eq_some hr
        simp [List.take_cons]
        refine ⟨fun he => hc he.symm, this⟩

theorem findChar_append {ch : Char} (l₁ l₂ : List Char) :
    findChar ch (l₁ ++ l₂) =
      match findChar ch l₁ with
      | some i => some i
      | none => (findChar ch l₂).map (· + l₁.length) := by
  induction l₁ with
  | nil => rcases h : findChar ch l₂ with _ | i <;> simp [h, findChar]
  | cons c rest ih =>
    rw [List.cons_append, findChar, ih, findChar]
    by_cases hc : c = ch
    · simp [hc]
    · rcases h1 : findChar ch rest with _ | j
      · rcases h2 : findChar ch l₂ with _ | i <;> simp [hc] <;> omega
      · simp [hc]

/-! ### Decomposition of a text around its current line -/

theorem lineStartIdx_le (text : List Char) (c : Nat) : lineStartIdx text c ≤ c := by
  rw [lineStartIdx]
  rcases h : rfindChar '\n' (text.take c) with _ | i
  · exact Nat.zero_le _
  · have := rfindChar_lt h
    simp [List.length_take] at this
    dsimp only
    omega

theorem lineStartIdx_le_length (text : List Char) (c : Nat) :
    lineStartIdx text c ≤ text.length := by
  rw [lineStartIdx]
  rcases h : rfindChar '\n' (text.take c) with _ | i
  · exact Nat.zero_le _
  · have := rfindChar_lt h
    simp [List.length_take] at this
    dsimp only
    omega

theorem lineEndIdx_le_length (text : List Char) (c : Nat) :
    lineEndIdx text c ≤ text.length := by
  rw [lineEndIdx]
  rcases h : findChar '\n' (text.drop c) with _ | i
  · exact Nat.le_refl _
  · have := findChar_lt h
    simp [List.length_drop] at this
    dsimp only
    omega

theorem le_lineEndIdx (text : List Char) (c : Nat) (hc : c ≤ text.length) :
    c ≤ lineEndIdx text c := by
  rw [lineEndIdx]
  rcases h : findChar '\n' (text.drop c) with _ | i
  · exact hc
  · dsimp only
    omega

theorem lineStartIdx_le_lineEndIdx (text : List Char) (c : Nat) :
    lineStartIdx text c ≤ lineEndIdx text c := by
  rw [lineStartIdx, lineEndIdx]
  rcases h1 : rfindChar '\n' (text.take c) with _ | i
  · exact Nat.zero_le _
  · have hi := rfindChar_lt h1
    simp [List.length_take] at hi
    rcases h2 : findChar '\n' (text.drop c) with _ | j
    · dsimp only
      omega
    · dsimp only
      omega

theorem currentLine_length (text : List Char) (c : Nat) :
    (currentLineOf text c).length = lineEndIdx text c - lineStartIdx text c := by
  rw [currentLineOf]
  have h1 := lineStartIdx_le_lineEndIdx text c
  have h2 := lineEndIdx_le_length text c
  simp [List.length_drop, List.length_take]
  omega

theorem text_eq_take_currentLine_drop (text : List Char) (c : Nat) :
    text = text.take (lineStartIdx text c) ++ currentLineOf text c ++
      text.drop (lineEndIdx text c) := by
  rw [currentLineOf]
  have h1 := lineStartIdx_le_lineEndIdx text c
  have h3 : text.take (lineStartIdx text c) =
      (text.take (lineEndIdx text c)).take (lineStartIdx text c) := by
    rw [List.take_take, Nat.min_eq_left h1]
  rw [h3, List.take_append_drop, List.take_append_drop]

theorem take_lineStartIdx_shape (text : List Char) (c : Nat) :
    text.take (lineStartIdx text c) = [] ∨
      ∃ a, text.take (lineStartIdx text c) = a ++ ['\n'] := by
  rw [lineStartIdx]
  rcases h : rfindChar '\n' (text.take c) with _ | i
  · left; rfl
  · right
    dsimp only
    have hi := rfindChar_lt h
    rw [List.length_take, lt_inf_iff] at hi
    have hg := rfindChar_get h
    rw [List.getElem?_take, if_pos hi.1] at hg
    refine ⟨text.take i, ?_⟩
    rw [List.take_succ, hg]
    rfl

theorem not_newline_take_drop_lineStart (text : List Char) (c : Nat) :
    '\n' ∉ (text.take c).drop (lineStartIdx text c) := by
  rw [lineStartIdx]
  rcases h : rfindChar '\n' (text.take c) with _ | i
  · dsimp only
    rw [List.drop_zero]
    exact not_mem_of_rfindChar_eq_none h
  · dsimp only
    exact rfindChar_drop_of_eq_some h

theorem not_newline_drop_take_lineEnd (text : List Char) (c : Nat) :
    '\n' ∉ (text.drop c).take (lineEndIdx text c - c) := by
  rw [lineEndIdx]
  rcases h : findChar '\n' (text.drop c) with _ | i
  · dsimp only
    intro hm
    exact not_mem_of_findChar_eq_none h (List.mem_of_mem_take hm)
  · dsimp only
    have hci : c + i - c = i := by omega
    rw [hci]
    exact findChar_take_of_eq_some h

theorem newline_not_mem_currentLine (text : List Char) (c : Nat) :
    '\n' ∉ currentLineOf text c := by
  by_cases hc : c ≤ text.length
  · have hsplit : text.take (lineEndIdx text c) =
        text.take c ++ (text.drop c).take (lineEndIdx text c - c) := by
      rw [← List.take_add]
      congr 1
      have := le_lineEndIdx text c hc
      omega
    have hlen : (text.take c).length = c := by
      rw [List.length_take]
      exact inf_eq_left.mpr hc
    rw [currentLineOf, hsplit, List.drop_append_eq_append_drop, hlen]
    have hp0 : lineStartIdx text c - c = 0 := by
      have := lineStartIdx_le text c; omega
    rw [hp0, List.drop_zero]
    intro hm
    rcases List.mem_append.1 hm with hmL | hmR
    · exact not_newline_take_drop_lineStart text c hmL
    · exact not_newline_drop_take_lineEnd text c hmR
  · -- cursor beyond the end: the whole tail of the text is the current line
    have htext : text.take c = text := List.take_of_length_le (by omega)
    have hend : lineEndIdx text c = text.length := by
      rw [lineEndIdx]
      have hd : text.drop c = [] := List.drop_of_length_le (by omega)
      rw [hd]
      rfl
    rw [currentLineOf, hend, List.take_length]
    have hres := not_newline_take_drop_lineStart text c
    rw [htext] at hres
    exact hres

theorem drop_lineEndIdx_shape (text : List Char) (c : Nat) :
    text.drop (lineEndIdx text c) = [] ∨
      ∃ b, text.drop (lineEndIdx text c) = '\n' :: b := by
  rw [lineEndIdx]
  rcases h : findChar '\n' (text.drop c) with _ | i
  · left
    dsimp only
    exact List.drop_of_length_le (Nat.le_refl _)
  · right
    dsimp only
    have hi := findChar_lt h
    rw [List.length_drop] at hi
    have hlt : c + i < text.length := by omega
    refine ⟨text.drop (c + i + 1), ?_⟩
    rw [List.drop_eq_getElem_cons hlt]
    have hg := findChar_get h
    rw [List.getElem?_drop, List.getElem?_eq_getElem hlt] at hg
    simp only [Option.some.injEq] at hg
    rw [hg]

/-! ### Splicing: the current line of a text of the shape `a ++ m ++ b` -/

theorem rfindChar_newline_single : rfindChar '\n' ['\n'] = some 0 := by decide

theorem currentLine_splice (a m b : List Char) (c : Nat)
    (ha : a = [] ∨ ∃ a', a = a' ++ ['\n'])
    (hm : '\n' ∉ m)
    (hb : b = [] ∨ ∃ b', b = '\n' :: b')
    (h1 : a.length ≤ c) (h2 : c ≤ a.length + m.length) :
    lineStartIdx (a ++ m ++ b) c = a.length ∧
    lineEndIdx (a ++ m ++ b) c = a.length + m.length ∧
    currentLineOf (a ++ m ++ b) c = m := by
  have htake : (a ++ m ++ b).take c = a ++ m.take (c - a.length) := by
    rw [List.take_append_eq_append_take, List.take_append_eq_append_take]
    rw [List.take_of_length_le h1]
    have hz : c - (a ++ m).length = 0 := by
      rw [List.length_append]; omega
    rw [hz, List.take_zero, List.append_nil]
  have hdrop : (a ++ m ++ b).drop c = m.drop (c - a.length) ++ b := by
    rw [List.drop_append_eq_append_drop, List.drop_append_eq_append_drop]
    rw [List.drop_of_length_le h1]
    have hz : c - (a ++ m).length = 0 := by
      rw [List.length_append]; omega
    rw [hz, List.drop_zero, List.nil_append]
  have hmtake : rfindChar '\n' (m.take (c - a.length)) = none :=
    rfindChar_eq_none (fun hx => hm (List.mem_of_mem_take hx))
  have hmdrop : findChar '\n' (m.drop (c - a.length)) = none :=
    findChar_eq_none (fun hx => hm (List.mem_of_mem_drop hx))
  have hstart : lineStartIdx (a ++ m ++ b) c = a.length := by
    rw [lineStartIdx, htake, rfindChar_append, hmtake]
    rcases ha with rfl | ⟨a', rfl⟩
    · rfl
    · rw [rfindChar_append, rfindChar_newline_single]
      dsimp only
      rw [List.length_append]
      rfl
  have hend : lineEndIdx (a ++ m ++ b) c = a.length + m.length := by
    rw [lineEndIdx, hdrop, findChar_append, hmdrop]
    rcases hb with rfl | ⟨b', rfl⟩
    · dsimp only [findChar]
      simp [List.length_append]
    · simp [findChar, List.length_drop]
      omega
  refine ⟨hstart, hend, ?_⟩
  rw [currentLineOf, hstart, hend]
  have htake2 : (a ++ m ++ b).take (a.length + m.length) = a ++ m := by
    rw [← List.length_append, List.take_left]
  rw [htake2, List.drop_left]

/-! ### Shape facts about bullets and line levels -/

theorem get_bullet_shape (k : Nat) :
    ∃ g, get_bullet_for_level k = [g, ' '] ∧ g ∈ BULLET_CHARS := by
  rw [get_bullet_for_level]
  have hlt : min (k - 1) (BULLET_CHARS.length - 1) < BULLET_CHARS.length := by
    have : BULLET_CHARS.length = 5 := by decide
    omega
  refine ⟨_, rfl, ?_⟩
  rw [List.getD_eq_getElem _ _ hlt]
  exact List.getElem_mem hlt

theorem bullet_chars_ne_newline : ∀ g ∈ BULLET_CHARS, ¬(g = '\n') := by decide

theorem bullet_chars_ne_space : ∀ g ∈ BULLET_CHARS, ¬(g = ' ') := by decide

theorem newline_not_mem_bullet (k : Nat) : '\n' ∉ get_bullet_for_level k := by
  obtain ⟨g, hg, hmem⟩ := get_bullet_shape k
  rw [hg]
  intro hx
  have hgn := bullet_chars_ne_newline g hmem
  simp only [List.mem_cons, List.not_mem_nil, or_false] at hx
  rcases hx with h | h
  · exact hgn h.symm
  · exact absurd h (by decide)

theorem get_bullet_length (k : Nat) : (get_bullet_for_level k).length = 2 := by
  obtain ⟨g, hg, _⟩ := get_bullet_shape k
  rw [hg]
  rfl

theorem dropWhile_head_not {p : Char → Bool} :
    ∀ {l x : List Char} {c : Char}, l.dropWhile p = c :: x → ¬(p c = true)
  | [], x, c, h => by simp at h
  | a :: l', x, c, h => by
    rw [List.dropWhile_cons] at h
    by_cases hp : p a
    · rw [if_pos hp] at h
      exact dropWhile_head_not h
    · rw [if_neg hp] at h
      cases h
      exact hp

theorem dropWhile_space_replicate_append (n : Nat) (t : List Char) :
    (List.replicate n ' ' ++ t).dropWhile (· = ' ') = t.dropWhile (· = ' ') := by
  induction n with
  | zero => rfl
  | succ n ih =>
    rw [List.replicate_succ, List.cons_append, List.dropWhile_cons]
    simpa using ih

theorem dropWhile_cons_not {t : List Char} {x : Char} (hx : ¬(x = ' ')) :
    (x :: t).dropWhile (· = ' ') = x :: t := by
  rw [List.dropWhile_cons, if_neg (by simpa using hx)]

theorem lineLevel_replicate_cons (n : Nat) (x : Char) (rest : List Char)
    (hx : ¬(x = ' ')) :
    lineLevel (List.replicate n ' ' ++ x :: rest) = n / 2 + 1 := by
  rw [lineLevel, dropWhile_space_replicate_append, dropWhile_cons_not hx]
  simp [List.length_replicate]

theorem lineLevel_replicate (n : Nat) :
    lineLevel (List.replicate n ' ' ++ []) = n / 2 + 1 := by
  rw [lineLevel, dropWhile_space_replicate_append]
  simp [List.length_replicate]

/-- The content returned by `get_line_bullet_info` is part of the line. -/
theorem bullet_info_content_sublist (line : List Char) :
    ((get_line_bullet_info line).2.2).Sublist line := by
  have hsub : (line.dropWhile (· = ' ')).Sublist line := List.dropWhile_sublist _
  rw [get_line_bullet_info]
  split
  next c d rest heq =>
    split
    · have h1 : List.Sublist rest (line.dropWhile (· = ' ')) := by
        rw [heq]
        exact (List.sublist_cons_self _ _).trans (List.sublist_cons_self _ _)
      exact h1.trans hsub
    · exact hsub
  next => exact hsub

/-- The spaces component of `get_line_bullet_info` is the count of leading
spaces. -/
theorem bullet_info_spaces (line : List Char) :
    (get_line_bullet_info line).1 =
      line.length - (line.dropWhile (· = ' ')).length := by
  rw [get_line_bullet_info]
  split <;> [skip; rfl]
  split <;> rfl

/-! ### The current line after `set_line_indent` -/

/-- Replacing the current line of a buffer by a newline-free line `NL`, with
the cursor placed inside the new line, makes `NL` the current line. -/
theorem currentLine_replace (s : EState) (NL : List Char) (newCol : Nat)
    (hNL : '\n' ∉ NL) :
    currentLineOf
      (s.text.take (lineStartIdx s.text s.cursor) ++ NL ++
        s.text.drop (lineEndIdx s.text s.cursor))
      (lineStartIdx s.text s.cursor + min newCol NL.length) = NL := by
  have hp := lineStartIdx_le_length s.text s.cursor
  have halen : (s.text.take (lineStartIdx s.text s.cursor)).length
      = lineStartIdx s.text s.cursor := by
    rw [List.length_take]; exact inf_eq_left.mpr hp
  have h := currentLine_splice (s.text.take (lineStartIdx s.text s.cursor)) NL
    (s.text.drop (lineEndIdx s.text s.cursor))
    (lineStartIdx s.text s.cursor + min newCol NL.length)
    (take_lineStartIdx_shape s.text s.cursor) hNL
    (drop_lineEndIdx_shape s.text s.cursor)
    (by rw [halen]; exact Nat.le_add_right _ _)
    (by rw [halen]
        have := Nat.min_le_right newCol NL.length
        omega)
  exact h.2.2

theorem newline_not_mem_dropWhile_currentLine (s : EState) :
    '\n' ∉ (currentLineOf s.text s.cursor).dropWhile (· = ' ') := fun hx =>
  newline_not_mem_currentLine s.text s.cursor
    ((List.dropWhile_sublist _).mem hx)

theorem newline_not_mem_content (s : EState) :
    '\n' ∉ (get_line_bullet_info (currentLineOf s.text s.cursor)).2.2 := fun hx =>
  newline_not_mem_currentLine s.text s.cursor
    ((bullet_info_content_sublist _).mem hx)

/-- After `set_line_indent s k` with `1 ≤ k`, the current line's indentation
level is exactly `k`: the rebuilt line has `2 * (k - 1)` leading spaces
followed by a non-space character (or nothing). -/
theorem curLevel_set_line_indent (s : EState) (k : Nat) (hk : 1 ≤ k) :
    get_current_line_indent_level (set_line_indent s k) = k := by
  have he : lineStartIdx s.text s.cursor +
      (currentLineOf s.text s.cursor).length = lineEndIdx s.text s.cursor := by
    rw [currentLine_length]
    have := lineStartIdx_le_lineEndIdx s.text s.cursor
    omega
  rcases hb : (get_line_bullet_info (currentLineOf s.text s.cursor)).2.1 with _ | g
  · -- no recognized bullet: the new line is the re-indented stripped line
    have hnl : '\n' ∉ List.replicate (2 * (k - 1)) ' ' ++
        (currentLineOf s.text s.cursor).dropWhile (· = ' ') := by
      intro hx
      rcases List.mem_append.1 hx with hx | hx
      · exact absurd (List.mem_replicate.1 hx).2 (by decide)
      · exact newline_not_mem_dropWhile_currentLine s hx
    simp only [get_current_line_indent_level, set_line_indent, hb]
    rw [he, currentLine_replace s _ _ hnl]
    rcases hdw : (currentLineOf s.text s.cursor).dropWhile (· = ' ') with _ | ⟨x, xs⟩
    · rw [lineLevel_replicate]
      omega
    · have hx : ¬(x = ' ') := by
        have := dropWhile_head_not hdw
        simpa using this
      rw [lineLevel_replicate_cons _ _ _ hx]
      omega
  · -- recognized bullet: the new line is indent ++ bullet ++ content
    obtain ⟨g', hg', hmem'⟩ := get_bullet_shape k
    have hnl : '\n' ∉ List.replicate (2 * (k - 1)) ' ' ++ get_bullet_for_level k ++
        (get_line_bullet_info (currentLineOf s.text s.cursor)).2.2 := by
      intro hx
      rcases List.mem_append.1 hx with hx | hx
      · rcases List.mem_append.1 hx with hx | hx
        · exact absurd (List.mem_replicate.1 hx).2 (by decide)
        · exact newline_not_mem_bullet k hx
      · exact newline_not_mem_content s hx
    simp only [get_current_line_indent_level, set_line_indent, hb]
    rw [he, currentLine_replace s _ _ hnl]
    rw [hg', List.append_assoc, List.cons_append, List.singleton_append]
    rw [lineLevel_replicate_cons _ _ _ (bullet_chars_ne_space g' hmem')]
    omega

/-! ### Level bounds under Tab and Shift+Tab -/

theorem one_le_curLevel (s : EState) : 1 ≤ get_current_line_indent_level s := by
  rw [get_current_line_indent_level, lineLevel]
  omega

theorem curLevel_tab_le (s : EState) (h : get_current_line_indent_level s ≤ 5) :
    get_current_line_indent_level (handle_tab s) ≤ 5 := by
  have hM : MAX_LEVEL = 5 := rfl
  by_cases hlt : get_current_line_indent_level s < MAX_LEVEL
  · have hrw : handle_tab s = set_line_indent s (get_current_line_indent_level s + 1) := by
      rw [handle_tab, if_pos hlt]
    rw [hrw, curLevel_set_line_indent _ _ (by omega)]
    omega
  · have hrw : handle_tab s = s := by
      rw [handle_tab, if_neg hlt]
    rw [hrw]
    exact h

theorem curLevel_tab_iterate_le (n : Nat) :
    ∀ (s : EState), get_current_line_indent_level s ≤ 5 →
      get_current_line_indent_level (handle_tab^[n] s) ≤ 5 := by
  induction n with
  | zero => intro s h; simpa using h
  | succ n ih =>
    intro s h
    rw [Function.iterate_succ_apply]
    exact ih _ (curLevel_tab_le s h)

/-! ### Seeding lemmas -/

theorem seedLine_dash (n : Nat) (rest : List Char) :
    seedLine (List.replicate n ' ' ++ '-' :: ' ' :: rest) =
      List.replicate n ' ' ++ get_bullet_for_level (n / 2 + 1) ++ rest := by
  have hdw : (List.replicate n ' ' ++ '-' :: ' ' :: rest).dropWhile (· = ' ')
      = '-' :: ' ' :: rest := by
    rw [dropWhile_space_replicate_append, dropWhile_cons_not (by decide)]
  have hlen : (List.replicate n ' ' ++ '-' :: ' ' :: rest).length -
      ('-' :: ' ' :: rest).length = n := by
    simp [List.length_append, List.length_replicate]
  rw [seedLine]
  simp only [hdw, hlen]
  rw [if_pos (by simp)]

theorem seedLine_plain_bullet (n : Nat) (rest : List Char) :
    seedLine (List.replicate n ' ' ++ '•' :: ' ' :: rest) =
      List.replicate n ' ' ++ get_bullet_for_level (n / 2 + 1) ++ rest := by
  have hdw : (List.replicate n ' ' ++ '•' :: ' ' :: rest).dropWhile (· = ' ')
      = '•' :: ' ' :: rest := by
    rw [dropWhile_space_replicate_append, dropWhile_cons_not (by decide)]
  have hlen : (List.replicate n ' ' ++ '•' :: ' ' :: rest).length -
      ('•' :: ' ' :: rest).length = n := by
    simp [List.length_append, List.length_replicate]
  rw [seedLine]
  simp only [hdw, hlen]
  rw [if_pos (by simp)]

theorem seedLine_no_marker (line : List Char)
    (h1 : ¬(['-', ' '].isPrefixOf (line.dropWhile (· = ' ')) = true))
    (h2 : ¬(['•', ' '].isPrefixOf (line.dropWhile (· = ' ')) = true)) :
    seedLine line = line := by
  rw [seedLine]
  split
  next c d rest heq =>
    rw [if_neg]
    rintro ⟨hd, hc⟩
    subst hd
    rcases hc with hc | hc <;> subst hc
    · exact h1 (by rw [heq]; simp [List.isPrefixOf])
    · exact h2 (by rw [heq]; simp [List.isPrefixOf])
  next => rfl

theorem seedLine_all_space (line : List Char) (h : line.all pyIsSpace = true) :
    seedLine line = line := by
  rw [seedLine]
  split
  next c d rest heq =>
    rw [if_neg]
    rintro ⟨hd, hc⟩
    have hcmem : c ∈ line := by
      have : c ∈ line.dropWhile (· = ' ') := by
        rw [heq]; exact List.mem_cons_self _ _
      exact (List.dropWhile_sublist _).mem this
    have hcs : pyIsSpace c = true := by
      rw [List.all_eq_true] at h
      exact h c hcmem
    rcases hc with hc | hc <;> subst hc <;> exact absurd hcs (by decide)
  next => rfl

theorem splitNL_mem_all_space :
    ∀ (l : List Char), l.all pyIsSpace = true →
      ∀ m ∈ splitNL l, m.all pyIsSpace = true
  | [], _, m, hm => by
    rw [splitNL] at hm
    simp at hm
    simp [hm]
  | c :: rest, h, m, hm => by
    rw [List.all_cons, Bool.and_eq_true] at h
    rw [splitNL] at hm
    by_cases hc : c = '\n'
    · rw [if_pos hc] at hm
      rcases List.mem_cons.1 hm with rfl | hm
      · rfl
      · exact splitNL_mem_all_space rest h.2 m hm
    · rw [if_neg hc] at hm
      cases hs : splitNL rest with
      | nil =>
        rw [hs] at hm
        simp at hm
        simp [hm, h.1]
      | cons l0 ls =>
        rw [hs] at hm
        rcases List.mem_cons.1 hm with rfl | hm
        · rw [List.all_cons, h.1, Bool.true_and]
          exact splitNL_mem_all_space rest h.2 l0 (by rw [hs]; exact List.mem_cons_self _ _)
        · exact splitNL_mem_all_space rest h.2 m (by rw [hs]; exact List.mem_cons_of_mem _ hm)

theorem joinNL_all_space :
    ∀ (lines : List (List Char)), (∀ m ∈ lines, m.all pyIsSpace = true) →
      (joinNL lines).all pyIsSpace = true
  | [], _ => rfl
  | [l], h => h l (List.mem_cons_self _ _)
  | l :: l' :: ls, h => by
    rw [joinNL, List.all_append, List.all_cons, Bool.and_eq_true, Bool.and_eq_true]
    refine ⟨h l (List.mem_cons_self _ _), by decide, ?_⟩
    exact joinNL_all_space (l' :: ls) (fun m hm => h m (List.mem_cons_of_mem _ hm))

theorem pyStrip_all_space (l : List Char) (h : l.all pyIsSpace = true) :
    pyStrip l = [] := by
  rw [pyStrip]
  have hdw : l.dropWhile pyIsSpace = [] := by
    rw [List.dropWhile_eq_nil_iff]
    rw [List.all_eq_true] at h
    exact h
  rw [hdw]
  rfl

theorem initial_text_blank (body : List Char) (h : body.all pyIsSpace = true) :
    initial_text_of body = get_bullet_for_level 1 := by
  rw [initial_text_of]
  by_cases hb : body = []
  · simp only [if_pos hb]
    rfl
  · simp only [if_neg hb]
    rw [if_pos]
    apply pyStrip_all_space
    apply joinNL_all_space
    intro m hm
    rw [List.mem_map] at hm
    obtain ⟨m', hm', rfl⟩ := hm
    have hall := splitNL_mem_all_space body h m' hm'
    rw [seedLine_all_space m' hall]
    exact hall

/-! ### Round-trip lemmas for the document codec -/

theorem isPrefixOf_cons_eq (a b : Char) (as bs : List Char) :
    (a :: as).isPrefixOf (b :: bs) = (a == b && as.isPrefixOf bs) := rfl

theorem findSub_nil_pat : ∀ (r : List Char), findSub [] r = some 0
  | [] => rfl
  | _ :: _ => by rw [findSub, if_pos (by simp [List.isPrefixOf])]

/-- When the first match of `pat` in `l` stretches to the very end of `l`,
appending anything after `l` leaves the first match unchanged. -/
theorem findSub_append_end {pat : List Char} :
    ∀ {l : List Char} {i : Nat}, findSub pat l = some i →
      i + pat.length = l.length → ∀ (r : List Char), findSub pat (l ++ r) = some i
  | [], i, h, hlen, r => by
    rw [findSub] at h
    by_cases hp : pat.isPrefixOf ([] : List Char) = true
    · rw [if_pos hp] at h
      simp only [Option.some.injEq] at h
      subst h
      have hpat : pat = [] := List.prefix_nil.1 (List.isPrefixOf_iff_prefix.1 hp)
      rw [hpat, List.nil_append]
      exact findSub_nil_pat r
    · rw [if_neg hp] at h
      exact absurd h (by simp)
  | c :: l', i, h, hlen, r => by
    rw [findSub] at h
    by_cases hp : pat.isPrefixOf (c :: l') = true
    · rw [if_pos hp] at h
      simp only [Option.some.injEq] at h
      subst h
      have hpat : pat = c :: l' :=
        (List.isPrefixOf_iff_prefix.1 hp).eq_of_length (by
          rw [List.length_cons] at hlen ⊢
          omega)
      rw [List.cons_append, findSub, if_pos]
      rw [List.isPrefixOf_iff_prefix, hpat, ← List.cons_append]
      exact List.prefix_append _ _
    · rw [if_neg hp] at h
      cases hf : findSub pat l' with
      | none => rw [hf] at h; simp at h
      | some j =>
        rw [hf] at h
        simp only [Option.map_some', Option.some.injEq] at h
        subst h
        have hlen' : j + pat.length = l'.length := by
          rw [List.length_cons] at hlen
          omega
        have ih := findSub_append_end hf hlen' r
        rw [List.cons_append, findSub, if_neg, ih]
        · rfl
        · intro hpf
          have hpre : pat = List.take pat.length (c :: (l' ++ r)) :=
            List.prefix_iff_eq_take.1 (List.isPrefixOf_iff_prefix.1 hpf)
          have htk : List.take pat.length (c :: (l' ++ r)) =
              List.take pat.length (c :: l') := by
            rw [show (c :: (l' ++ r)) = (c :: l') ++ r from rfl,
              List.take_append_eq_append_take]
            have hz : pat.length - (c :: l').length = 0 := by
              rw [List.length_cons]
              omega
            rw [hz, List.take_zero, List.append_nil]
          apply hp
          rw [List.isPrefixOf_iff_prefix, List.prefix_iff_eq_take]
          exact hpre.trans htk

theorem splitNL_no_newline : ∀ {l : List Char}, '\n' ∉ l → splitNL l = [l]
  | [], _ => rfl
  | c :: rest, h => by
    have hc : ¬(c = '\n') := fun he => h (he ▸ List.mem_cons_self _ _)
    have hr : '\n' ∉ rest := fun hm => h (List.mem_cons_of_mem _ hm)
    rw [splitNL, if_neg hc, splitNL_no_newline hr]

theorem splitNL_append_cons_newline :
    ∀ {x : List Char}, '\n' ∉ x → ∀ (r : List Char),
      splitNL (x ++ '\n' :: r) = x :: splitNL r
  | [], _, r => by rw [List.nil_append, splitNL, if_pos rfl]
  | c :: x', h, r => by
    have hc : ¬(c = '\n') := fun he => h (he ▸ List.mem_cons_self _ _)
    have hx : '\n' ∉ x' := fun hm => h (List.mem_cons_of_mem _ hm)
    rw [List.cons_append, splitNL, if_neg hc, splitNL_append_cons_newline hx r]

/-- Splitting on newlines is a left inverse of joining newline-free lines. -/
theorem splitNL_joinNL :
    ∀ (lines : List (List Char)), lines ≠ [] → (∀ l ∈ lines, '\n' ∉ l) →
      splitNL (joinNL lines) = lines
  | [], hne, _ => absurd rfl hne
  | [x], _, h => by
    rw [joinNL]
    exact splitNL_no_newline (h x (List.mem_cons_self _ _))
  | x :: y :: ls, _, h => by
    rw [joinNL, splitNL_append_cons_newline (h x (List.mem_cons_self _ _))]
    rw [splitNL_joinNL (y :: ls) (by simp)
      (fun l hl => h l (List.mem_cons_of_mem _ hl))]

theorem joinNL_cons (x : List Char) (ls : List (List Char)) :
    ∃ t, joinNL (x :: ls) = x ++ t := by
  cases ls with
  | nil => exact ⟨[], by rw [joinNL, List.append_nil]⟩
  | cons y ls => exact ⟨'\n' :: joinNL (y :: ls), rfl⟩

theorem pyRstrip_snoc_ws (x : List Char) (c : Char) (hc : pyIsSpace c = true) :
    pyRstrip (x ++ [c]) = pyRstrip x := by
  rw [pyRstrip, pyRstrip, List.reverse_append]
  simp [List.dropWhile_cons, hc]

/-- A list whose last segment is rstrip-invariant and non-empty is itself
rstrip-invariant after prepending anything. -/
theorem pyRstrip_append_right (x l : List Char) (hl : pyRstrip l = l)
    (hne : l ≠ []) : pyRstrip (x ++ l) = x ++ l := by
  have hrev : l.reverse.dropWhile pyIsSpace = l.reverse := by
    have h2 := congrArg List.reverse hl
    rw [pyRstrip, List.reverse_reverse] at h2
    exact h2
  obtain ⟨c, t, hct⟩ : ∃ c t, l.reverse = c :: t := by
    cases hr : l.reverse with
    | nil => exact absurd (List.reverse_eq_nil_iff.1 hr) hne
    | cons c t => exact ⟨c, t, rfl⟩
  have hcws : ¬(pyIsSpace c = true) := by
    intro hws
    rw [hct, List.dropWhile_cons, if_pos hws] at hrev
    have hle := (List.dropWhile_sublist (l := t) pyIsSpace).length_le
    have hlen := congrArg List.length hrev
    rw [List.length_cons] at hlen
    omega
  rw [pyRstrip, List.reverse_append, hct, List.cons_append, List.dropWhile_cons,
    if_neg hcws, ← List.cons_append, ← hct, ← List.reverse_append,
    List.reverse_reverse]

/-- The joined text of rstrip-invariant non-empty lines is rstrip-invariant. -/
theorem pyRstrip_joinNL :
    ∀ (lines : List (List Char)),
      (∀ l ∈ lines, pyRstrip l = l ∧ l ≠ []) → lines ≠ [] →
      pyRstrip (joinNL lines) = joinNL lines
  | [], _, hne => absurd rfl hne
  | [x], h, _ => by rw [joinNL]; exact (h x (List.mem_cons_self _ _)).1
  | x :: y :: ls, h, _ => by
    rw [joinNL]
    have hrec := pyRstrip_joinNL (y :: ls)
      (fun l hl => h l (List.mem_cons_of_mem _ hl)) (by simp)
    have hjne : joinNL (y :: ls) ≠ [] := by
      obtain ⟨t, ht⟩ := joinNL_cons y ls
      rw [ht]
      have hy := (h y (List.mem_cons_of_mem _ (List.mem_cons_self _ _))).2
      simp [hy]
    have hx : x ++ '\n' :: joinNL (y :: ls) = (x ++ ['\n']) ++ joinNL (y :: ls) := by
      simp
    rw [hx]
    exact pyRstrip_append_right _ _ hrec hjne

theorem bullet_chars_not_ws : ∀ g ∈ BULLET_CHARS, pyIsSpace g = false := by decide

theorem bullet_chars_beq_dash : ∀ g ∈ BULLET_CHARS, ('-' == g) = false := by decide

/-- A well-formed body line exactly as the on-disk format describes it:
level indentation, a bullet character, one space, non-blank newline-free
content with no trailing whitespace. -/
def wellFormedLine (l : List Char) : Prop :=
  ∃ n g rest, l = List.replicate n ' ' ++ g :: ' ' :: rest ∧ g ∈ BULLET_CHARS ∧
    '\n' ∉ rest ∧ pyRstrip l = l

theorem wellFormedLine_no_newline {l : List Char} (h : wellFormedLine l) :
    '\n' ∉ l := by
  obtain ⟨n, g, rest, rfl, hg, hnr, _⟩ := h
  intro hm
  rcases List.mem_append.1 hm with hm | hm
  · exact absurd (List.mem_replicate.1 hm).2 (by decide)
  · rcases List.mem_cons.1 hm with he | hm
    · exact bullet_chars_ne_newline g hg he.symm
    · rcases List.mem_cons.1 hm with he | hm
      · exact absurd he (by decide)
      · exact hnr hm

theorem wellFormedLine_ne_nil {l : List Char} (h : wellFormedLine l) : l ≠ [] := by
  obtain ⟨n, g, rest, rfl, _, _, _⟩ := h
  simp

theorem pyStrip_body_block (join : List Char) (c0 : Char) (t : List Char)
    (hhead : join = c0 :: t) (hc0 : pyIsSpace c0 = false)
    (hrs : pyRstrip join = join) :
    pyStrip ('\n' :: '\n' :: (join ++ ['\n'])) = join := by
  rw [pyStrip]
  rw [show List.dropWhile pyIsSpace ('\n' :: '\n' :: (join ++ ['\n']))
      = join ++ ['\n'] from ?_]
  · rw [pyRstrip_snoc_ws _ _ (by decide), hrs]
  · rw [List.dropWhile_cons, if_pos (by decide), List.dropWhile_cons,
      if_pos (by decide), hhead, List.cons_append, List.dropWhile_cons,
      if_neg (by simp [hc0])]

end Braindump

namespace Braindump

/-! ## Claim theorems -/

/-- C1: starting from a buffer whose text is a single empty level-1 bullet
(`"• "`, any cursor position) with the session editing, the first Enter sets
the pending-exit tracker without exiting and leaves the buffer unchanged; a
second consecutive Enter sets `save_on_exit` and exits. The cleaned-up body
is empty, so when the original body was empty the save epilogue deletes the
file. -/
theorem c1_double_confirm (c : Nat) (hc : c ≤ 2) (fm : List Char) :
    ((handle_enter ⟨"• ".data, c, false, false, false⟩).lastEnterWasEmpty = true ∧
     (handle_enter ⟨"• ".data, c, false, false, false⟩).exited = false ∧
     (handle_enter ⟨"• ".data, c, false, false, false⟩).saveOnExit = false ∧
     (handle_enter ⟨"• ".data, c, false, false, false⟩).text = "• ".data) ∧
    ((handle_enter (handle_enter ⟨"• ".data, c, false, false, false⟩)).saveOnExit
        = true ∧
     (handle_enter (handle_enter ⟨"• ".data, c, false, false, false⟩)).exited
        = true ∧
     (handle_enter (handle_enter ⟨"• ".data, c, false, false, false⟩)).text
        = "• ".data) ∧
    edited_lines_of
        (handle_enter (handle_enter ⟨"• ".data, c, false, false, false⟩)).text
      = [] ∧
    save_outcome true
        (handle_enter (handle_enter ⟨"• ".data, c, false, false, false⟩)).text
        [] fm
      = SaveOutcome.deleted := by
  interval_cases c <;>
    exact ⟨⟨rfl, rfl, rfl, rfl⟩, ⟨rfl, rfl, rfl⟩, rfl, rfl⟩

/-- C1 witness: the double Enter on `"• "` with cursor at the end deletes an
originally-empty file. -/
theorem c1_double_confirm_witness :
    save_outcome true
        (handle_enter (handle_enter ⟨"• ".data, 2, false, false, false⟩)).text
        [] []
      = SaveOutcome.deleted :=
  (c1_double_confirm 2 (by decide) []).2.2.2

/-- C2 counterexample: Tab while the pending-exit tracker is set does NOT
clear it — after Enter on an empty level-1 bullet, Tab then Shift+Tab leave
the tracker set, so the next Enter exits immediately instead of being treated
as a first confirm. -/
theorem c2_counterexample :
    (handle_enter ⟨"• ".data, 2, false, false, false⟩).lastEnterWasEmpty = true ∧
    (handle_tab (handle_enter ⟨"• ".data, 2, false, false, false⟩)).lastEnterWasEmpty
      = true ∧
    (handle_enter (handle_shift_tab (handle_tab
        (handle_enter ⟨"• ".data, 2, false, false, false⟩)))).exited = true := by
  decide

/-- C2 (amended): Delete-backward always clears the pending-exit tracker
before its normal processing, but Increase-indent, Decrease-indent and Move
down leave the tracker untouched. -/
theorem c2_pending_exit_flag (s : EState) :
    (handle_backspace s).lastEnterWasEmpty = false ∧
    (handle_tab s).lastEnterWasEmpty = s.lastEnterWasEmpty ∧
    (handle_shift_tab s).lastEnterWasEmpty = s.lastEnterWasEmpty ∧
    (handle_down_arrow s).lastEnterWasEmpty = s.lastEnterWasEmpty := by
  refine ⟨rfl, ?_, ?_, rfl⟩
  · rw [handle_tab]; split <;> rfl
  · rw [handle_shift_tab]; split <;> rfl

/-- C3: when the cleaned-up, bullet-normalized edited lines equal the
normalized original lines, the file is deleted if the original body had no
lines and otherwise the write is skipped; in particular a body `"- item"`
seeded into the editor and saved unedited (displayed as `"• item"`) is
classified unchanged and causes no write. -/
theorem c3_unchanged_detection :
    (∀ (t body fm : List Char),
        (edited_lines_of t).map normalize_line = original_lines_of body →
        save_outcome true t body fm =
          (if original_lines_of body = [] then SaveOutcome.deleted
           else SaveOutcome.skipped)) ∧
    (∀ fm : List Char,
        save_outcome true (initial_text_of ("- item".data)) ("- item".data) fm =
          SaveOutcome.skipped) := by
  constructor
  · intro t body fm heq
    rw [save_outcome, if_pos rfl]
    rw [if_pos heq]
    by_cases h0 : original_lines_of body = []
    · rw [if_pos (by rw [h0]; rfl), if_pos h0]
    · rw [if_neg (by simpa [List.length_eq_zero] using h0), if_neg h0]
  · intro fm
    rfl

/-- C3 witness: the seeded text for body `"- item"` saved unedited skips the
write. -/
theorem c3_unchanged_detection_witness :
    save_outcome true ("• item".data) ("- item".data) [] =
      (if original_lines_of ("- item".data) = [] then SaveOutcome.deleted
       else SaveOutcome.skipped) :=
  c3_unchanged_detection.1 _ _ _ (by decide)

/-- C4 counterexample: the seeding conversion does not rewrite the
level-specific glyph `"◦ "` into the level-1 bullet: body `"◦ x"` is seeded
unchanged, not as `"• x"` as the claim requires. -/
theorem c4_counterexample :
    initial_text_of ("◦ x".data) = "◦ x".data ∧
    ¬(initial_text_of ("◦ x".data) = "• x".data) := by decide

/-- C4 (amended): the seeding conversion rewrites only a leading plain hyphen
`"- "` or plain bullet `"• "` into the bullet of the line's indentation
level; any other line — including one led by the four deeper level glyphs —
passes through unchanged; an empty or blank body seeds a single empty level-1
bullet. (`normalize_bullets`, which converts every glyph, exists in the
source but is not used for seeding.) -/
theorem c4_seed_normalization :
    (∀ (n : Nat) (rest : List Char),
      seedLine (List.replicate n ' ' ++ '-' :: ' ' :: rest) =
        List.replicate n ' ' ++ get_bullet_for_level (n / 2 + 1) ++ rest) ∧
    (∀ (n : Nat) (rest : List Char),
      seedLine (List.replicate n ' ' ++ '•' :: ' ' :: rest) =
        List.replicate n ' ' ++ get_bullet_for_level (n / 2 + 1) ++ rest) ∧
    (∀ line : List Char,
      ¬(['-', ' '].isPrefixOf (line.dropWhile (· = ' ')) = true) →
      ¬(['•', ' '].isPrefixOf (line.dropWhile (· = ' ')) = true) →
      seedLine line = line) ∧
    (∀ body : List Char, body.all pyIsSpace = true →
      initial_text_of body = get_bullet_for_level 1) :=
  ⟨seedLine_dash, seedLine_plain_bullet, seedLine_no_marker, initial_text_blank⟩

/-- C4 witness: `"  - hi"` is seeded as the level-2 bullet line `"  ◦ hi"`,
the glyph line `"‣ z"` passes through unchanged, and the blank body `"  "`
seeds a single empty level-1 bullet. -/
theorem c4_seed_normalization_witness :
    seedLine ("  - hi".data) = "  ◦ hi".data ∧
    seedLine ("‣ z".data) = "‣ z".data ∧
    initial_text_of ("  ".data) = "• ".data := by
  refine ⟨?_, ?_, ?_⟩
  · have harg : "  - hi".data = List.replicate 2 ' ' ++ '-' :: ' ' :: "hi".data := by
      decide
    rw [harg, c4_seed_normalization.1 2 ("hi".data)]
    decide
  · exact c4_seed_normalization.2.2.1 _ (by decide) (by decide)
  · exact c4_seed_normalization.2.2.2 _ (by decide)

/-- C5: with the cursor exactly at the first content character after a
recognized bullet marker, Delete-backward removes the whole marker-plus-line:
on a non-first line the content is appended to the end of the previous line
with the cursor at the join point; on the first line the marker (with its
indentation) is stripped and the content kept; and a first-line bullet with
no content is never deleted. -/
theorem c5_backspace_merge (s : EState) (g : Char)
    (hbul : (get_line_bullet_info (currentLineOf s.text s.cursor)).2.1 = some g)
    (hcol : s.cursor - lineStartIdx s.text s.cursor =
      (get_line_bullet_info (currentLineOf s.text s.cursor)).1 + 2) :
    (0 < lineStartIdx s.text s.cursor →
      (handle_backspace s).text =
        s.text.take (lineStartIdx s.text s.cursor - 1) ++
          (get_line_bullet_info (currentLineOf s.text s.cursor)).2.2 ++
          s.text.drop (lineEndIdx s.text s.cursor) ∧
      (handle_backspace s).cursor = lineStartIdx s.text s.cursor - 1) ∧
    (lineStartIdx s.text s.cursor = 0 →
      (get_line_bullet_info (currentLineOf s.text s.cursor)).2.2 ≠ [] →
      (handle_backspace s).text =
        (get_line_bullet_info (currentLineOf s.text s.cursor)).2.2 ++
          s.text.drop (lineEndIdx s.text s.cursor) ∧
      (handle_backspace s).cursor = 0) ∧
    (lineStartIdx s.text s.cursor = 0 →
      (get_line_bullet_info (currentLineOf s.text s.cursor)).2.2 = [] →
      (handle_backspace s).text = s.text ∧
      (handle_backspace s).cursor = s.cursor) := by
  have hple := lineStartIdx_le s.text s.cursor
  have hcur0 : ¬(s.cursor = 0) := by
    intro h0
    rw [h0] at hcol
    have hz : lineStartIdx s.text 0 = 0 := rfl
    rw [hz] at hcol
    omega
  have hp : s.cursor - (s.cursor - lineStartIdx s.text s.cursor) =
      lineStartIdx s.text s.cursor := by omega
  have hmain : backspace_text_cursor s.text s.cursor =
      (if 0 < lineStartIdx s.text s.cursor then
        (s.text.take (lineStartIdx s.text s.cursor - 1) ++
          (get_line_bullet_info (currentLineOf s.text s.cursor)).2.2 ++
          s.text.drop (lineEndIdx s.text s.cursor),
         lineStartIdx s.text s.cursor - 1)
      else if (get_line_bullet_info (currentLineOf s.text s.cursor)).2.2 = [] then
        (s.text, s.cursor)
      else
        ((get_line_bullet_info (currentLineOf s.text s.cursor)).2.2 ++
          s.text.drop (lineEndIdx s.text s.cursor), 0)) := by
    rw [backspace_text_cursor, if_neg hcur0]
    simp only [hbul]
    rw [if_pos hcol, hp]
  simp only [handle_backspace]
  refine ⟨?_, ?_, ?_⟩
  · intro hpos
    rw [hmain, if_pos hpos]
    exact ⟨rfl, rfl⟩
  · intro hpz hcne
    rw [hmain, if_neg (by omega), if_neg hcne]
    exact ⟨rfl, rfl⟩
  · intro hpz hce
    rw [hmain, if_neg (by omega), if_pos hce]
    exact ⟨rfl, rfl⟩

/-- C5 witness: in `"• first\n• second"` with the cursor at the start of
`second`, Delete-backward yields `"• firstsecond"` with the cursor at the
join point. -/
theorem c5_backspace_merge_witness :
    (handle_backspace ⟨"• first\n• second".data, 10, false, false, false⟩).text
      = "• firstsecond".data ∧
    (handle_backspace ⟨"• first\n• second".data, 10, false, false, false⟩).cursor
      = 7 := by
  have h := (c5_backspace_merge ⟨"• first\n• second".data, 10, false, false, false⟩
    '•' (by decide) (by decide)).1 (by decide)
  refine ⟨?_, ?_⟩
  · rw [h.1]; decide
  · rw [h.2]; decide

/-- C6: any sequence of Increase-indent presses starting on a level-1 line
keeps the current line's level at most `MAX_LEVEL = 5`, and the level read
from leading spaces is at least 1 after any sequence of Decrease-indent
presses. -/
theorem c6_level_bounds :
    (∀ (s : EState), get_current_line_indent_level s = 1 →
      ∀ n : Nat, get_current_line_indent_level (handle_tab^[n] s) ≤ 5) ∧
    (∀ (s : EState) (n : Nat),
      1 ≤ get_current_line_indent_level (handle_shift_tab^[n] s)) :=
  ⟨fun s h1 n => curLevel_tab_iterate_le n s (by omega),
   fun s n => one_le_curLevel _⟩

/-- C6 witness: seven Tab presses from a level-1 bullet stay at level at most
5, and Shift+Tab never goes below level 1. -/
theorem c6_level_bounds_witness :
    get_current_line_indent_level
        (handle_tab^[7] ⟨"• ".data, 2, false, false, false⟩) ≤ 5 ∧
    1 ≤ get_current_line_indent_level
        (handle_shift_tab^[3] ⟨"• ".data, 2, false, false, false⟩) :=
  ⟨c6_level_bounds.1 _ (by decide) 7, c6_level_bounds.2 _ 3⟩

/-- C7 counterexample: with empty frontmatter the decoded body keeps the
trailing newline the encoder appends, so splitting it does not return the
original well-formed lines: encoding `["• x"]` decodes to a body whose lines
are `["• x", ""]`. -/
theorem c7_counterexample :
    splitNL (decode (encode [] [("• x".data)])).2 = [("• x".data), []] ∧
    ¬(splitNL (decode (encode [] [("• x".data)])).2 = [("• x".data)]) := by
  decide

/-- C7 (amended): with a proper non-empty frontmatter block (it starts with
the delimiter and the first `"---"` at or after index 3 is its final three
characters) and well-formed body lines whose first line is unindented,
`decode (encode fm lines)` returns the frontmatter verbatim and the body
`joinNL lines`, whose newline split is exactly `lines`. With empty
frontmatter the decoder returns the encoded text as the body unchanged —
including the trailing newline, so the lines are only recovered up to a
trailing empty line. -/
theorem c7_round_trip :
    (∀ (fm : List Char) (lines : List (List Char))
      (hfm1 : ['-', '-', '-'].isPrefixOf fm = true)
      (hfm2 : findSub ['-', '-', '-'] (fm.drop 3) = some (fm.length - 6))
      (hfm3 : 6 ≤ fm.length)
      (hne : lines ≠ [])
      (hwf : ∀ l ∈ lines, wellFormedLine l),
      (∃ g rest, g ∈ BULLET_CHARS ∧ lines.head hne = g :: ' ' :: rest) →
      decode (encode fm lines) = (fm, joinNL lines) ∧
      splitNL (joinNL lines) = lines) ∧
    (∀ (lines : List (List Char)), lines ≠ [] →
      (∀ l ∈ lines, wellFormedLine l) →
      decode (encode [] lines) = ([], joinNL lines ++ ['\n'])) := by
  constructor
  · intro fm lines hfm1 hfm2 hfm3 hne hwf hfirst
    have hsplit := splitNL_joinNL lines hne
      (fun l hl => wellFormedLine_no_newline (hwf l hl))
    refine ⟨?_, hsplit⟩
    have hfmne : fm ≠ [] := by
      intro h
      rw [h] at hfm3
      simp at hfm3
    have henc : encode fm lines =
        fm ++ '\n' :: '\n' :: (joinNL lines ++ ['\n']) := by
      rw [encode, if_pos hfmne]
    rw [henc, decode]
    have hpre : ['-', '-', '-'].isPrefixOf
        (fm ++ '\n' :: '\n' :: (joinNL lines ++ ['\n'])) = true := by
      rw [List.isPrefixOf_iff_prefix] at hfm1 ⊢
      exact hfm1.trans (List.prefix_append _ _)
    rw [if_pos hpre]
    have hdrop3 : (fm ++ '\n' :: '\n' :: (joinNL lines ++ ['\n'])).drop 3 =
        fm.drop 3 ++ '\n' :: '\n' :: (joinNL lines ++ ['\n']) := by
      rw [List.drop_append_eq_append_drop]
      have h30 : 3 - fm.length = 0 := by omega
      rw [h30, List.drop_zero]
    have hfs : findSub ['-', '-', '-']
        ((fm ++ '\n' :: '\n' :: (joinNL lines ++ ['\n'])).drop 3)
        = some (fm.length - 6) := by
      rw [hdrop3]
      apply findSub_append_end hfm2
      rw [List.length_drop]
      have h3 : (['-', '-', '-'] : List Char).length = 3 := rfl
      rw [h3]
      omega
    rw [hfs]
    simp only [Option.map_some']
    have he1 : fm.length - 6 + 3 + 3 = fm.length := by omega
    rw [he1, List.take_left, List.drop_left]
    obtain ⟨x, ls, rfl⟩ : ∃ x ls, lines = x :: ls := by
      cases lines with
      | nil => exact absurd rfl hne
      | cons x ls => exact ⟨x, ls, rfl⟩
    obtain ⟨g, rest, hgB, hhead⟩ := hfirst
    rw [List.head_cons] at hhead
    obtain ⟨t, ht⟩ := joinNL_cons x ls
    have hjoin : joinNL (x :: ls) = g :: (' ' :: rest ++ t) := by
      rw [ht, hhead, List.cons_append]
    have hrs : pyRstrip (joinNL (x :: ls)) = joinNL (x :: ls) :=
      pyRstrip_joinNL (x :: ls)
        (fun l hl =>
          ⟨(hwf l hl).choose_spec.choose_spec.choose_spec.2.2.2,
           wellFormedLine_ne_nil (hwf l hl)⟩)
        (by simp)
    rw [pyStrip_body_block (joinNL (x :: ls)) g (' ' :: rest ++ t) hjoin
      (bullet_chars_not_ws g hgB) hrs]
  · intro lines hne hwf
    obtain ⟨x, ls, rfl⟩ : ∃ x ls, lines = x :: ls := by
      cases lines with
      | nil => exact absurd rfl hne
      | cons x ls => exact ⟨x, ls, rfl⟩
    obtain ⟨n, g, rest, hx, hg, _, _⟩ := hwf x (List.mem_cons_self _ _)
    have henc : encode [] (x :: ls) = joinNL (x :: ls) ++ ['\n'] := by
      rw [encode, if_neg (by simp)]
    obtain ⟨t, ht⟩ := joinNL_cons x ls
    have hhead : ∃ c Y, joinNL (x :: ls) ++ ['\n'] = c :: Y ∧ ('-' == c) = false := by
      rw [ht, hx]
      cases n with
      | zero =>
        refine ⟨g, (' ' :: rest ++ t) ++ ['\n'], by simp, ?_⟩
        exact bullet_chars_beq_dash g hg
      | succ n =>
        refine ⟨' ',
          ((List.replicate n ' ' ++ g :: ' ' :: rest) ++ t) ++ ['\n'],
          by simp [List.replicate_succ], by decide⟩
    obtain ⟨c, Y, hcy, hcne⟩ := hhead
    have hpre : ¬(['-', '-', '-'].isPrefixOf (joinNL (x :: ls) ++ ['\n']) = true) := by
      rw [hcy, isPrefixOf_cons_eq, hcne, Bool.false_and]
      simp
    rw [henc, decode, if_neg hpre]

/-- C7 witness: a concrete frontmatter block and two well-formed bullet lines
round-trip exactly through `encode` then `decode`. -/
theorem c7_round_trip_witness :
    decode (encode ("---\na: 1\n---".data) [("• x".data), ("  ◦ y".data)]) =
      ("---\na: 1\n---".data, "• x\n  ◦ y".data) ∧
    splitNL ("• x\n  ◦ y".data) = [("• x".data), ("  ◦ y".data)] := by
  have hwf : ∀ l ∈ [("• x".data), ("  ◦ y".data)], wellFormedLine l := by
    intro l hl
    rcases List.mem_cons.1 hl with rfl | hl
    · exact ⟨0, '•', "x".data, by decide, by decide, by decide, by decide⟩
    · rcases List.mem_cons.1 hl with rfl | hl
      · exact ⟨2, '◦', "y".data, by decide, by decide, by decide, by decide⟩
      · exact absurd hl (List.not_mem_nil _)
  have h := c7_round_trip.1 ("---\na: 1\n---".data)
    [("• x".data), ("  ◦ y".data)] (by decide) (by decide) (by decide)
    (by simp) hwf ⟨'•', "x".data, by decide, by decide⟩
  have hj : joinNL [("• x".data), ("  ◦ y".data)] = "• x\n  ◦ y".data := by decide
  exact ⟨by rw [h.1, hj], by rw [← hj, h.2]⟩

/-- C8: an interrupted session forces `save_on_exit = false`, so the outcome
is `cancelled` — identical to an explicit cancel — and the file is neither
written nor deleted. -/
theorem c8_interrupt_cancels (s : EState) (body fm : List Char) :
    (interrupt_session s).saveOnExit = false ∧
    session_result (interrupt_session s) body fm = SaveOutcome.cancelled ∧
    session_result (interrupt_session s) body fm =
      session_result (handle_cancel s) body fm :=
  ⟨rfl, rfl, rfl⟩

/-- C9: when the current line carries no recognized bullet marker, Enter
never exits, never changes `save_on_exit`, resets the pending-exit tracker,
and inserts at the cursor a newline followed by the line's leading
indentation and the bullet of its indentation-derived level. -/
theorem c9_enter_no_bullet (s : EState)
    (hnone : (get_line_bullet_info (currentLineOf s.text s.cursor)).2.1 = none) :
    (handle_enter s).exited = s.exited ∧
    (handle_enter s).saveOnExit = s.saveOnExit ∧
    (handle_enter s).lastEnterWasEmpty = false ∧
    (handle_enter s).text = s.text.take s.cursor ++
      '\n' :: (List.replicate (get_line_bullet_info (currentLineOf s.text s.cursor)).1 ' ' ++
        get_bullet_for_level
          ((get_line_bullet_info (currentLineOf s.text s.cursor)).1 / 2 + 1)) ++
      s.text.drop s.cursor ∧
    (handle_enter s).cursor = s.cursor +
      ((get_line_bullet_info (currentLineOf s.text s.cursor)).1 + 3) := by
  have hred : handle_enter s = insert_text { s with lastEnterWasEmpty := false }
      ('\n' :: (List.replicate (get_line_bullet_info (currentLineOf s.text s.cursor)).1 ' ' ++
        get_bullet_for_level
          ((get_line_bullet_info (currentLineOf s.text s.cursor)).1 / 2 + 1))) := by
    rw [handle_enter, hnone]
    rfl
  rw [hred, insert_text]
  refine ⟨rfl, rfl, rfl, rfl, ?_⟩
  simp only [List.length_cons, List.length_append, List.length_replicate,
    get_bullet_length]
  try omega

/-- C9 witness: Enter on the unmarked line `"hello"` (pending-exit set)
resets the tracker, does not exit, and appends `"\n• "`. -/
theorem c9_enter_no_bullet_witness :
    (handle_enter ⟨"hello".data, 5, true, false, false⟩).exited = false ∧
    (handle_enter ⟨"hello".data, 5, true, false, false⟩).lastEnterWasEmpty = false ∧
    (handle_enter ⟨"hello".data, 5, true, false, false⟩).text = "hello\n• ".data := by
  have h := c9_enter_no_bullet ⟨"hello".data, 5, true, false, false⟩ (by decide)
  exact ⟨h.1, h.2.2.1, by rw [h.2.2.2.1]; decide⟩

/-- C10: the level-to-bullet mapping is total and clamped: for every level at
least 1 it produces the bullet of `min level 5` followed by one space, the
clamped index is always in range, and the produced marker is always one of
the five bullet characters plus a space. -/
theorem c10_bullet_total_clamped (level : Nat) (h : 1 ≤ level) :
    get_bullet_for_level level = get_bullet_for_level (min level 5) ∧
    (BULLET_CHARS[min (level - 1) (BULLET_CHARS.length - 1)]?).isSome = true ∧
    ∃ g, get_bullet_for_level level = [g, ' '] ∧ g ∈ BULLET_CHARS := by
  have h5 : BULLET_CHARS.length = 5 := by decide
  refine ⟨?_, ?_, get_bullet_shape level⟩
  · have harg : min (level - 1) (BULLET_CHARS.length - 1) =
        min (min level 5 - 1) (BULLET_CHARS.length - 1) := by
      rw [h5]; omega
    rw [get_bullet_for_level, get_bullet_for_level, harg]
  · have hlt : min (level - 1) (BULLET_CHARS.length - 1) < BULLET_CHARS.length := by
      rw [h5]; omega
    simp [List.getElem?_eq_getElem hlt]

/-- C10 witness: level 7 is clamped to level 5. -/
theorem c10_bullet_total_clamped_witness :
    get_bullet_for_level 7 = get_bullet_for_level (min 7 5) ∧
    (BULLET_CHARS[min (7 - 1) (BULLET_CHARS.length - 1)]?).isSome = true ∧
    ∃ g, get_bullet_for_level 7 = [g, ' '] ∧ g ∈ BULLET_CHARS :=
  c10_bullet_total_clamped 7 (by decide)

end Braindump
